import Mathlib

/-!
Shallow embedding of `src/c++/src/latticemap.cpp` (KMCLib's `LatticeMap` class)
and proofs about it.

Modelling conventions:
* C++ `int` is modelled by `Int`; all claims quantify over ranges in which the
  C++ arithmetic does not overflow, so unbounded integers are faithful there.
* C++ integer division truncates towards zero, which is `Int.tdiv`; it is used
  wherever the source divides (`index / n_basis_`).
* `std::vector<int>` fields are `List Int`; the unchecked `operator[]` is
  modelled by `List.getD` with default `0` (every claim fixes the length, so
  the default is never reached in the proofs).
* The file-scope mutable `static std::vector<int> tmp_cell_indices__` is
  modelled explicitly by a `GlobalState` record threaded through the stateful
  versions of the constructor and of `indicesFromCell`; the pure
  `indicesFromCell` gives the value the shared buffer holds right after a call,
  which is also the value `neighbourIndices` copies out sequentially.
* `std::sort` is modelled by a sorting function (sorted permutation of the
  input) and `std::unique` + `resize` by adjacent-duplicate removal.
* In `neighbourIndices` the source preallocates `(2*shells+1)^3 * n_basis_`
  entries and finally truncates to the number written; the model returns the
  written prefix directly.  The preallocation size itself (negative for
  `shells < 0`, where the C++ `size_t` conversion makes the allocation fail
  uncontrolled) is not part of the returned-value model.
-/

/-- The `LatticeMap` class: basis count, repetitions and periodicity flags,
stored exactly as the constructor stores them (no validation in the source). -/
structure LatticeMap where
  n_basis_ : Int
  repetitions_ : List Int
  periodic_ : List Bool
deriving DecidableEq

/-- Unchecked `std::vector<int>::operator[]`. -/
def getI (xs : List Int) (n : Nat) : Int := xs.getD n 0

/-- Unchecked `std::vector<bool>::operator[]`. -/
def getB (xs : List Bool) (n : Nat) : Bool := xs.getD n false

/-- Convenience constructor for a map with three repetitions and three
periodicity flags, the shape every claim quantifies over. -/
def mkMap (nb Ra Rb Rc : Int) (pa pb pc : Bool) : LatticeMap :=
  ⟨nb, [Ra, Rb, Rc], [pa, pb, pc]⟩

/-- `LatticeMap::indicesFromCell`, value computed into the shared buffer:
`tmp3 + l` for `l = 0 .. n_basis_ - 1` with
`tmp3 = ((i*repetitions_[1] + j)*repetitions_[2] + k) * n_basis_`. -/
def indicesFromCell (m : LatticeMap) (i j k : Int) : List Int :=
  let tmp1 := i * getI m.repetitions_ 1 + j
  let tmp2 := tmp1 * getI m.repetitions_ 2 + k
  let tmp3 := tmp2 * m.n_basis_
  (List.range m.n_basis_.toNat).map (fun (l : Nat) => tmp3 + (l : Int))

/-- The `while(cmp < idx) { ++cell; cmp += factor; }` loops of
`LatticeMap::indexToCell`.  The guard `0 < factor` restricts the model to the
inputs on which the C++ loop terminates (with `factor ≤ 0` and `cmp < idx` the
source loops forever). -/
def incLoop (idx factor cmp cell : Int) : Int :=
  if 0 < factor ∧ cmp < idx then incLoop idx factor (cmp + factor) (cell + 1)
  else cell
termination_by (idx - cmp).toNat
decreasing_by omega

/-- The `while(cell_k < idx_k) { ++cell_k; }` loop of `LatticeMap::indexToCell`. -/
def kLoop (idx cell : Int) : Int :=
  if cell < idx then kLoop idx (cell + 1) else cell
termination_by (idx - cell).toNat
decreasing_by omega

/-- `LatticeMap::indexToCell`: the iterative decode of the source, returning
`(cell_i, cell_j, cell_k)`.  `index / n_basis_` is C++ truncating division. -/
def indexToCell (m : LatticeMap) (index : Int) : Int × Int × Int :=
  let idx := Int.tdiv index m.n_basis_ + 1
  let factor_i := getI m.repetitions_ 1 * getI m.repetitions_ 2
  let cell_i := incLoop idx factor_i factor_i 0
  let ci := cell_i * factor_i
  let factor_j := getI m.repetitions_ 2
  let idx_j := idx - ci
  let cell_j := incLoop idx_j factor_j factor_j 0
  let cij := ci + cell_j * factor_j
  let idx_k := idx - cij
  let cell_k := kLoop idx_k 1 - 1
  (cell_i, cell_j, cell_k)

/-- Modelled from the spec (§4.3): the direct arithmetic decode
`cellLinear = index / basisCount`, `k = cellLinear mod Rc`,
`j = (cellLinear / Rc) mod Rb`, `i = cellLinear / (Rb*Rc)`.  Used as the
reference side of the refinement claim about the iterative decode. -/
def indexToCellSpec (m : LatticeMap) (index : Int) : Int × Int × Int :=
  let cellLinear := index / m.n_basis_
  let Rb := getI m.repetitions_ 1
  let Rc := getI m.repetitions_ 2
  (cellLinear / (Rb * Rc), cellLinear / Rc % Rb, cellLinear % Rc)

/-- Per-axis periodicity handling of `LatticeMap::neighbourIndices`: one
single add or subtract of the repetition count, only on a periodic axis. -/
def wrap1 (periodicAxis : Bool) (rep x : Int) : Int :=
  if periodicAxis then
    if x < 0 then x + rep
    else if rep ≤ x then x - rep
    else x
  else x

/-- The ascending integer range `lo, lo+1, ..., hi` (empty when `hi < lo`),
modelling the C++ `for (int v = lo; v <= hi; ++v)` loops. -/
def intRange (lo hi : Int) : List Int :=
  (List.range (hi + 1 - lo).toNat).map (fun (n : Nat) => lo + (n : Int))

/-- The local variables `ii`, `jj`, `kk` of `LatticeMap::neighbourIndices`:
the candidate coordinate of the given axis after the single wrap step. -/
def wrapped (m : LatticeMap) (axis : Nat) (x : Int) : Int :=
  wrap1 (getB m.periodic_ axis) (getI m.repetitions_ axis) x

/-- The triple loop body of `LatticeMap::neighbourIndices` starting from the
already-decoded cell `(ci, cj, ck)`: wrap each candidate once per axis, keep it
only if it lands in `[0, R)`, and append the cell's `indicesFromCell` block. -/
def neighbourIndicesFromCell (m : LatticeMap) (ci cj ck shells : Int) : List Int :=
  (intRange (ci - shells) (ci + shells)).flatMap (fun i =>
    if 0 ≤ wrapped m 0 i ∧ wrapped m 0 i < getI m.repetitions_ 0 then
      (intRange (cj - shells) (cj + shells)).flatMap (fun j =>
        if 0 ≤ wrapped m 1 j ∧ wrapped m 1 j < getI m.repetitions_ 1 then
          (intRange (ck - shells) (ck + shells)).flatMap (fun k =>
            if 0 ≤ wrapped m 2 k ∧ wrapped m 2 k < getI m.repetitions_ 2 then
              indicesFromCell m (wrapped m 0 i) (wrapped m 1 j) (wrapped m 2 k)
            else [])
        else [])
    else [])

/-- `LatticeMap::neighbourIndices`: decode the cell of `index`, then run the
triple loop. -/
def neighbourIndices (m : LatticeMap) (index shells : Int) : List Int :=
  let c := indexToCell m index
  neighbourIndicesFromCell m c.1 c.2.1 c.2.2 shells

/-- `std::unique` followed by `resize`: remove adjacent duplicates, keeping the
first element of each run. -/
def uniqueAdj : List Int → List Int
  | [] => []
  | [x] => [x]
  | x :: y :: rest => if x = y then uniqueAdj (x :: rest) else x :: uniqueAdj (y :: rest)

/-- `LatticeMap::supersetNeighbourIndices`: concatenate the neighbour lists of
all inputs (the call `neighbourIndices(index)` uses the header's default shell
radius 1, per the spec since the header is not among the sources), sort, and
drop duplicates. -/
def supersetNeighbourIndices (m : LatticeMap) (indices : List Int) : List Int :=
  let superset := indices.flatMap (fun index => neighbourIndices m index 1)
  uniqueAdj (List.insertionSort (· ≤ ·) superset)

/-- State of the translation unit's file-scope mutable variable
`static std::vector<int> tmp_cell_indices__`. -/
structure GlobalState where
  tmp_cell_indices : List Int
deriving DecidableEq

/-- The static vector is empty when the translation unit is initialised. -/
def initState : GlobalState := ⟨[]⟩

/-- `std::vector<int>::resize(n)`: truncate or pad with value-initialised `0`s. -/
def vectorResize (xs : List Int) (n : Nat) : List Int :=
  xs.take n ++ List.replicate (n - xs.length) 0

/-- The `LatticeMap` constructor with its side effect: it stores the three
arguments unvalidated and resizes the shared static buffer to `n_basis_`. -/
def constructST (n_basis : Int) (repetitions : List Int) (periodic : List Bool)
    (s : GlobalState) : LatticeMap × GlobalState :=
  (⟨n_basis, repetitions, periodic⟩,
   ⟨vectorResize s.tmp_cell_indices n_basis.toNat⟩)

/-- Stateful `LatticeMap::indicesFromCell`: overwrite the first `n_basis_`
slots of the shared static buffer and return (a reference to) that buffer, so
the caller's view of the result is whatever the buffer holds later. -/
def indicesFromCellST (m : LatticeMap) (i j k : Int) (s : GlobalState) : GlobalState :=
  ⟨indicesFromCell m i j k ++ s.tmp_cell_indices.drop m.n_basis_.toNat⟩

/-!  Arithmetic helper lemmas about Euclidean division on nonnegative
integers, obtained by transport from the corresponding `Nat` facts. -/

theorem ediv_ediv_nonneg (a b c : Int) (ha : 0 ≤ a) (hb : 0 ≤ b) (hc : 0 ≤ c) :
    a / b / c = a / (b * c) := by
  obtain ⟨a, rfl⟩ := Int.eq_ofNat_of_zero_le ha
  obtain ⟨b, rfl⟩ := Int.eq_ofNat_of_zero_le hb
  obtain ⟨c, rfl⟩ := Int.eq_ofNat_of_zero_le hc
  exact_mod_cast Nat.div_div_eq_div_mul a b c

theorem emod_mul_ediv_eq (a b c : Int) (ha : 0 ≤ a) (hb : 0 ≤ b) (hc : 0 ≤ c) :
    a % (b * c) / c = a / c % b := by
  obtain ⟨a, rfl⟩ := Int.eq_ofNat_of_zero_le ha
  obtain ⟨b, rfl⟩ := Int.eq_ofNat_of_zero_le hb
  obtain ⟨c, rfl⟩ := Int.eq_ofNat_of_zero_le hc
  have h := Nat.mod_mul_right_div_self a c b
  rw [Nat.mul_comm c b] at h
  exact_mod_cast h

/-!  Characterisations of the source's while loops. -/

/-- The counting loop adds `max 0 ⌈(idx - cmp) / factor⌉` to `cell`. -/
theorem incLoop_eq (idx factor : Int) (hf : 0 < factor) (cmp cell : Int) :
    incLoop idx factor cmp cell = cell + max 0 ((idx - cmp + factor - 1) / factor) := by
  by_cases h : cmp < idx
  · rw [incLoop]
    simp only [hf, h, and_self, if_true]
    rw [incLoop_eq idx factor hf (cmp + factor) (cell + 1)]
    have key : idx - cmp + factor - 1 = (idx - (cmp + factor) + factor - 1) + 1 * factor := by
      ring
    have h1 : 0 ≤ idx - (cmp + factor) + factor - 1 := by omega
    rw [key, Int.add_mul_ediv_right _ _ hf.ne']
    have h2 : 0 ≤ (idx - (cmp + factor) + factor - 1) / factor :=
      Int.ediv_nonneg h1 hf.le
    omega
  · rw [incLoop]
    simp only [hf, h, and_false, if_false]
    have h1 : idx - cmp + factor - 1 < 1 * factor := by omega
    have h2 : (idx - cmp + factor - 1) / factor < 1 :=
      Int.ediv_lt_of_lt_mul hf (by omega)
    omega
termination_by (idx - cmp).toNat
decreasing_by omega

/-- The final loop computes the maximum of its two arguments. -/
theorem kLoop_eq (idx cell : Int) : kLoop idx cell = max cell idx := by
  by_cases h : cell < idx
  · rw [kLoop]
    simp only [h, if_true]
    rw [kLoop_eq idx (cell + 1)]
    omega
  · rw [kLoop]
    simp only [h, if_false]
    omega
termination_by (idx - cell).toNat
decreasing_by omega

/-- Central characterisation: on a well-formed geometry the iterative decode
equals the direct division/modulo arithmetic of the mapping law, for every
nonnegative index (no upper bound is needed). -/
theorem indexToCell_eq (nb Ra Rb Rc : Int) (pa pb pc : Bool) (index : Int)
    (hnb : 0 < nb) (hRb : 0 < Rb) (hRc : 0 < Rc) (hidx : 0 ≤ index) :
    indexToCell (mkMap nb Ra Rb Rc pa pb pc) index =
      (index / nb / (Rb * Rc), index / nb / Rc % Rb, index / nb % Rc) := by
  have hfI : 0 < Rb * Rc := mul_pos hRb hRc
  set L : Int := index / nb with hL
  have hL0 : 0 ≤ L := Int.ediv_nonneg hidx hnb.le
  have htdiv : Int.tdiv index nb = L := Int.tdiv_eq_ediv hidx hnb.le
  unfold indexToCell
  simp only [mkMap, getI, List.getD]
  norm_num
  rw [htdiv]
  rw [incLoop_eq _ _ hfI, incLoop_eq _ _ hRc, kLoop_eq]
  simp only [zero_add]
  -- the i loop
  have hcell_i : max 0 ((L + 1 - Rb * Rc + Rb * Rc - 1) / (Rb * Rc)) = L / (Rb * Rc) := by
    have e1 : L + 1 - Rb * Rc + Rb * Rc - 1 = L := by ring
    rw [e1]
    exact max_eq_right (Int.ediv_nonneg hL0 hfI.le)
  rw [hcell_i]
  -- the j loop input reduces to `L % (Rb*Rc)`
  have e2 : L + 1 - L / (Rb * Rc) * (Rb * Rc) - Rc + Rc - 1 = L % (Rb * Rc) := by
    rw [Int.emod_def]; ring
  rw [e2]
  have hmod0 : 0 ≤ L % (Rb * Rc) := Int.emod_nonneg L hfI.ne'
  have hj : L % (Rb * Rc) / Rc = L / Rc % Rb :=
    emod_mul_ediv_eq L Rb Rc hL0 hRb.le hRc.le
  have hcell_j : max 0 (L % (Rb * Rc) / Rc) = L / Rc % Rb := by
    rw [max_eq_right (Int.ediv_nonneg hmod0 hRc.le), hj]
  rw [hcell_j]
  -- the k loop input reduces to `L % Rc + 1`
  have e3 : L + 1 - (L / (Rb * Rc) * (Rb * Rc) + L / Rc % Rb * Rc) = L % Rc + 1 := by
    have d1 : Rb * Rc * (L / (Rb * Rc)) + L % (Rb * Rc) = L := Int.ediv_add_emod L (Rb * Rc)
    have d2 : Rc * (L % (Rb * Rc) / Rc) + L % (Rb * Rc) % Rc = L % (Rb * Rc) :=
      Int.ediv_add_emod (L % (Rb * Rc)) Rc
    have d3 : L % (Rb * Rc) % Rc = L % Rc := Int.emod_emod_of_dvd L ⟨Rb, mul_comm Rb Rc⟩
    have c1 : L / (Rb * Rc) * (Rb * Rc) = Rb * Rc * (L / (Rb * Rc)) := by ring
    have c2 : L / Rc % Rb * Rc = Rc * (L % (Rb * Rc) / Rc) := by rw [← hj]; ring
    omega
  rw [e3]
  have hmodRc : 0 ≤ L % Rc := Int.emod_nonneg L hRc.ne'
  omega

/-- Reassembling a cell linear index from its decoded digits gives it back. -/
theorem cell_decomp (L Rb Rc : Int) (hL : 0 ≤ L) (hRb : 0 < Rb) (hRc : 0 < Rc) :
    (L / (Rb * Rc) * Rb + L / Rc % Rb) * Rc + L % Rc = L := by
  have h1 : L / (Rb * Rc) = L / Rc / Rb := by
    rw [ediv_ediv_nonneg L Rc Rb hL hRc.le hRb.le, mul_comm]
  have h2 : Rb * (L / Rc / Rb) + L / Rc % Rb = L / Rc := Int.ediv_add_emod (L / Rc) Rb
  have h3 : Rc * (L / Rc) + L % Rc = L := Int.ediv_add_emod L Rc
  rw [h1]
  linear_combination Rc * h2 + h3

/-- Element access into the encoder's output list. -/
theorem indicesFromCell_elem (nb Ra Rb Rc : Int) (pa pb pc : Bool) (i j k : Int) (l : Nat)
    (hl : (l : Int) < nb) :
    (indicesFromCell (mkMap nb Ra Rb Rc pa pb pc) i j k)[l]?
      = some (((i * Rb + j) * Rc + k) * nb + (l : Int)) := by
  have hln : l < nb.toNat := by omega
  simp only [indicesFromCell, mkMap, getI, List.getD_cons_succ, List.getD_cons_zero]
  rw [List.getElem?_map, List.getElem?_range hln]
  rfl

/-- Length of the encoder's output list. -/
theorem indicesFromCell_length (nb Ra Rb Rc : Int) (pa pb pc : Bool) (i j k : Int) :
    (indicesFromCell (mkMap nb Ra Rb Rc pa pb pc) i j k).length = nb.toNat := by
  simp only [indicesFromCell, List.length_map, List.length_range, mkMap]

/-- Injectivity of the mapping law on valid digit tuples (no bound on the top
digit is needed). -/
theorem encode_inj (nb Rb Rc q q' k k' l l' : Int)
    (hnb : 0 < nb) (hRb : 0 < Rb) (hRc : 0 < Rc)
    (hk0 : 0 ≤ k) (hk1 : k < Rc) (hl0 : 0 ≤ l) (hl1 : l < nb)
    (hk0' : 0 ≤ k') (hk1' : k' < Rc) (hl0' : 0 ≤ l') (hl1' : l' < nb)
    (heq : (q * Rc + k) * nb + l = (q' * Rc + k') * nb + l') :
    q = q' ∧ k = k' ∧ l = l' := by
  have h1 : ((q * Rc + k) * nb + l) / nb = q * Rc + k
      ∧ ((q * Rc + k) * nb + l) % nb = l :=
    (Int.ediv_emod_unique hnb).mpr ⟨by ring, hl0, hl1⟩
  have h1' : ((q * Rc + k) * nb + l) / nb = q' * Rc + k'
      ∧ ((q * Rc + k) * nb + l) % nb = l' :=
    (Int.ediv_emod_unique hnb).mpr ⟨by rw [heq]; ring, hl0', hl1'⟩
  have hq : q * Rc + k = q' * Rc + k' := h1.1.symm.trans h1'.1
  have h2 : (q * Rc + k) / Rc = q ∧ (q * Rc + k) % Rc = k :=
    (Int.ediv_emod_unique hRc).mpr ⟨by ring, hk0, hk1⟩
  have h2' : (q * Rc + k) / Rc = q' ∧ (q * Rc + k) % Rc = k' :=
    (Int.ediv_emod_unique hRc).mpr ⟨by rw [hq]; ring, hk0', hk1'⟩
  exact ⟨h2.1.symm.trans h2'.1, h2.2.symm.trans h2'.2, h1.2.symm.trans h1'.2⟩

/-- C1: for every index in `[0, totalSites)`, `indicesFromCell` applied to the
cell coordinate returned by `indexToCell index` yields a sequence containing
`index` at position `index mod basisCount`. -/
theorem C1_roundtrip (nb Ra Rb Rc : Int) (pa pb pc : Bool) (index : Int)
    (hnb : 0 < nb) (hRa : 0 < Ra) (hRb : 0 < Rb) (hRc : 0 < Rc)
    (h0 : 0 ≤ index) (h1 : index < Ra * Rb * Rc * nb) :
    (indicesFromCell (mkMap nb Ra Rb Rc pa pb pc)
        (indexToCell (mkMap nb Ra Rb Rc pa pb pc) index).1
        (indexToCell (mkMap nb Ra Rb Rc pa pb pc) index).2.1
        (indexToCell (mkMap nb Ra Rb Rc pa pb pc) index).2.2)[(index % nb).toNat]?
      = some index := by
  rw [indexToCell_eq nb Ra Rb Rc pa pb pc index hnb hRb hRc h0]
  have hm0 : 0 ≤ index % nb := Int.emod_nonneg index hnb.ne'
  have hm1 : index % nb < nb := Int.emod_lt_of_pos index hnb
  have hcast : ((index % nb).toNat : Int) = index % nb := Int.toNat_of_nonneg hm0
  rw [indicesFromCell_elem nb Ra Rb Rc pa pb pc _ _ _ ((index % nb).toNat) (by omega)]
  have hL0 : 0 ≤ index / nb := Int.ediv_nonneg h0 hnb.le
  have hd := cell_decomp (index / nb) Rb Rc hL0 hRb hRc
  have he : nb * (index / nb) + index % nb = index := Int.ediv_add_emod index nb
  congr 1
  rw [hcast, hd]
  linear_combination he

/-- C2: the iterative decode loop of the source is equivalent to the direct
arithmetic decode of the mapping law (`cellLinear = index / basisCount`,
`k = cellLinear mod Rc`, `j = (cellLinear / Rc) mod Rb`,
`i = cellLinear / (Rb*Rc)`) for every index in `[0, totalSites)`. -/
theorem C2_decode_refinement (nb Ra Rb Rc : Int) (pa pb pc : Bool) (index : Int)
    (hnb : 0 < nb) (hRa : 0 < Ra) (hRb : 0 < Rb) (hRc : 0 < Rc)
    (h0 : 0 ≤ index) (h1 : index < Ra * Rb * Rc * nb) :
    indexToCell (mkMap nb Ra Rb Rc pa pb pc) index
      = indexToCellSpec (mkMap nb Ra Rb Rc pa pb pc) index := by
  rw [indexToCell_eq nb Ra Rb Rc pa pb pc index hnb hRb hRc h0]
  simp [indexToCellSpec, mkMap, getI, List.getD]

/-- Witness for C2 at a concrete input. -/
theorem C2_decode_refinement_witness :
    (0 : Int) < 2 ∧ (0 : Int) < 2 ∧ (0 : Int) < 3 ∧ (0 : Int) < 4 ∧
    (0 : Int) ≤ 13 ∧ (13 : Int) < 2 * 3 * 4 * 2 ∧
    indexToCell (mkMap 2 2 3 4 true false true) 13
      = indexToCellSpec (mkMap 2 2 3 4 true false true) 13 :=
  ⟨by norm_num, by norm_num, by norm_num, by norm_num, by norm_num, by norm_num,
   C2_decode_refinement 2 2 3 4 true false true 13 (by norm_num) (by norm_num)
     (by norm_num) (by norm_num) (by norm_num) (by norm_num)⟩

/-- Witness for C1 at a concrete input. -/
theorem C1_roundtrip_witness :
    (0 : Int) < 2 ∧ (0 : Int) < 2 ∧ (0 : Int) < 3 ∧ (0 : Int) < 4 ∧
    (0 : Int) ≤ 13 ∧ (13 : Int) < 2 * 3 * 4 * 2 ∧
    (indicesFromCell (mkMap 2 2 3 4 true false true)
        (indexToCell (mkMap 2 2 3 4 true false true) 13).1
        (indexToCell (mkMap 2 2 3 4 true false true) 13).2.1
        (indexToCell (mkMap 2 2 3 4 true false true) 13).2.2)[((13 : Int) % 2).toNat]?
      = some 13 :=
  ⟨by norm_num, by norm_num, by norm_num, by norm_num, by norm_num, by norm_num,
   C1_roundtrip 2 2 3 4 true false true 13 (by norm_num) (by norm_num)
     (by norm_num) (by norm_num) (by norm_num) (by norm_num)⟩

/-- C3: `indicesFromCell` returns exactly `basisCount` values, the `l`-th
being `((i*Rb + j)*Rc + k)*basisCount + l`, in strictly increasing order, and
the mapping `(i,j,k,l) ↦ l-th entry of indicesFromCell i j k` is a bijection
between the valid tuples and `[0, totalSites)`. -/
theorem C3_encoder_law (nb Ra Rb Rc : Int) (pa pb pc : Bool) (i j k : Int)
    (hnb : 0 < nb) (hRa : 0 < Ra) (hRb : 0 < Rb) (hRc : 0 < Rc)
    (hi0 : 0 ≤ i) (hi1 : i < Ra) (hj0 : 0 ≤ j) (hj1 : j < Rb)
    (hk0 : 0 ≤ k) (hk1 : k < Rc) :
    (indicesFromCell (mkMap nb Ra Rb Rc pa pb pc) i j k).length = nb.toNat ∧
    (∀ l : Nat, (l : Int) < nb →
      (indicesFromCell (mkMap nb Ra Rb Rc pa pb pc) i j k)[l]?
        = some (((i * Rb + j) * Rc + k) * nb + (l : Int))) ∧
    List.Pairwise (· < ·) (indicesFromCell (mkMap nb Ra Rb Rc pa pb pc) i j k) ∧
    (∀ i' j' k' : Int, ∀ l l' : Nat,
      0 ≤ i' → i' < Ra → 0 ≤ j' → j' < Rb → 0 ≤ k' → k' < Rc →
      (l : Int) < nb → (l' : Int) < nb →
      (indicesFromCell (mkMap nb Ra Rb Rc pa pb pc) i j k)[l]?
        = (indicesFromCell (mkMap nb Ra Rb Rc pa pb pc) i' j' k')[l']? →
      i = i' ∧ j = j' ∧ k = k' ∧ l = l') ∧
    (∀ v : Int, 0 ≤ v → v < Ra * Rb * Rc * nb → ∃ i' j' k' : Int, ∃ l : Nat,
      0 ≤ i' ∧ i' < Ra ∧ 0 ≤ j' ∧ j' < Rb ∧ 0 ≤ k' ∧ k' < Rc ∧ (l : Int) < nb ∧
      (indicesFromCell (mkMap nb Ra Rb Rc pa pb pc) i' j' k')[l]? = some v) := by
  refine ⟨indicesFromCell_length nb Ra Rb Rc pa pb pc i j k,
    fun l hl => indicesFromCell_elem nb Ra Rb Rc pa pb pc i j k l hl, ?_, ?_, ?_⟩
  · -- strictly increasing
    simp only [indicesFromCell, List.pairwise_map]
    have hpw := List.pairwise_lt_range (mkMap nb Ra Rb Rc pa pb pc).n_basis_.toNat
    exact hpw.imp (fun hab => by omega)
  · -- injectivity
    intro i' j' k' l l' hi0' hi1' hj0' hj1' hk0' hk1' hl hl' heq
    rw [indicesFromCell_elem nb Ra Rb Rc pa pb pc i j k l hl,
      indicesFromCell_elem nb Ra Rb Rc pa pb pc i' j' k' l' hl'] at heq
    have heq' : ((i * Rb + j) * Rc + k) * nb + (l : Int)
        = ((i' * Rb + j') * Rc + k') * nb + (l' : Int) := by
      exact Option.some.inj heq
    obtain ⟨hq, hk, hl2⟩ := encode_inj nb Rb Rc (i * Rb + j) (i' * Rb + j') k k'
      (l : Int) (l' : Int) hnb hRb hRc hk0 hk1 (by omega) hl
      hk0' hk1' (by omega) hl' heq'
    obtain ⟨hi2, hj2, -⟩ := encode_inj nb Rc Rb i i' j j' 0 0 hnb hRc hRb
      hj0 hj1 le_rfl hnb hj0' hj1' le_rfl hnb (by linear_combination nb * hq)
    exact ⟨hi2, hj2, hk, by omega⟩
  · -- surjectivity
    intro v hv0 hv1
    have hL0 : 0 ≤ v / nb := Int.ediv_nonneg hv0 hnb.le
    have hfI : 0 < Rb * Rc := mul_pos hRb hRc
    refine ⟨v / nb / (Rb * Rc), v / nb / Rc % Rb, v / nb % Rc, (v % nb).toNat,
      Int.ediv_nonneg hL0 hfI.le, ?_,
      Int.emod_nonneg _ hRb.ne', Int.emod_lt_of_pos _ hRb,
      Int.emod_nonneg _ hRc.ne', Int.emod_lt_of_pos _ hRc, ?_, ?_⟩
    · -- i' < Ra
      have hLlt : v / nb < Ra * Rb * Rc :=
        (Int.ediv_lt_iff_lt_mul hnb).mpr (by linarith [hv1])
      refine (Int.ediv_lt_iff_lt_mul hfI).mpr ?_
      calc v / nb < Ra * Rb * Rc := hLlt
        _ = Ra * (Rb * Rc) := by ring
    · -- the basis offset is below nb
      have := Int.emod_nonneg v hnb.ne'
      have := Int.emod_lt_of_pos v hnb
      omega
    · -- the encoded entry is v
      have hm0 : 0 ≤ v % nb := Int.emod_nonneg v hnb.ne'
      have hm1 : v % nb < nb := Int.emod_lt_of_pos v hnb
      rw [indicesFromCell_elem nb Ra Rb Rc pa pb pc _ _ _ _ (by omega)]
      have hcast : (((v % nb).toNat : Nat) : Int) = v % nb := Int.toNat_of_nonneg hm0
      have hd := cell_decomp (v / nb) Rb Rc hL0 hRb hRc
      have he : nb * (v / nb) + v % nb = v := Int.ediv_add_emod v nb
      congr 1
      rw [hcast, hd]
      linear_combination he

/-- Witness for C3 at a concrete input. -/
theorem C3_encoder_law_witness :
    (0 : Int) < 2 ∧ (0 : Int) < 2 ∧ (0 : Int) < 3 ∧ (0 : Int) < 4 ∧
    (0 : Int) ≤ 1 ∧ (1 : Int) < 2 ∧ (0 : Int) ≤ 2 ∧ (2 : Int) < 3 ∧
    (0 : Int) ≤ 3 ∧ (3 : Int) < 4 ∧
    (indicesFromCell (mkMap 2 2 3 4 false true false) 1 2 3).length = (2 : Int).toNat :=
  ⟨by norm_num, by norm_num, by norm_num, by norm_num, by norm_num, by norm_num,
   by norm_num, by norm_num, by norm_num, by norm_num,
   (C3_encoder_law 2 2 3 4 false true false 1 2 3 (by norm_num) (by norm_num)
     (by norm_num) (by norm_num) (by norm_num) (by norm_num) (by norm_num)
     (by norm_num) (by norm_num) (by norm_num)).1⟩

/-- Membership is preserved by adjacent-duplicate removal. -/
theorem mem_uniqueAdj (l : List Int) (v : Int) : v ∈ uniqueAdj l ↔ v ∈ l := by
  match l with
  | [] => simp [uniqueAdj]
  | [x] => simp [uniqueAdj]
  | x :: y :: rest =>
    by_cases h : x = y
    · rw [uniqueAdj, if_pos h, mem_uniqueAdj (x :: rest) v]
      subst h
      simp only [List.mem_cons]
      tauto
    · rw [uniqueAdj, if_neg h]
      simp only [List.mem_cons, mem_uniqueAdj (y :: rest) v]
termination_by l.length

/-- Adjacent-duplicate removal of a weakly sorted list is strictly sorted. -/
theorem uniqueAdj_sorted (l : List Int) (h : List.Sorted (· ≤ ·) l) :
    List.Pairwise (· < ·) (uniqueAdj l) := by
  match l with
  | [] => simp [uniqueAdj]
  | [x] => simp [uniqueAdj]
  | x :: y :: rest =>
    by_cases hxy : x = y
    · rw [uniqueAdj, if_pos hxy]
      apply uniqueAdj_sorted (x :: rest)
      subst hxy
      refine List.Pairwise.sublist ?_ h
      exact List.Sublist.cons₂ x (List.sublist_cons_self x rest)
    · rw [uniqueAdj, if_neg hxy]
      have hs : List.Sorted (· ≤ ·) (y :: rest) := h.of_cons
      refine List.pairwise_cons.mpr ⟨?_, uniqueAdj_sorted (y :: rest) hs⟩
      intro z hz
      rw [mem_uniqueAdj] at hz
      have hxley : x ≤ y := (List.sorted_cons.mp h).1 y (by simp)
      rcases List.mem_cons.mp hz with rfl | hzr
      · exact lt_of_le_of_ne hxley hxy
      · exact lt_of_lt_of_le (lt_of_le_of_ne hxley hxy) ((List.sorted_cons.mp hs).1 z hzr)
termination_by l.length

instance : IsAntisymm Int (· < ·) :=
  ⟨fun a _ h1 h2 => absurd (h1.trans h2) (lt_irrefl a)⟩

/-- Strictly sorted integer lists with the same members are equal. -/
theorem strictSorted_eq_of_mem_iff (l1 l2 : List Int)
    (h1 : List.Pairwise (· < ·) l1) (h2 : List.Pairwise (· < ·) l2)
    (hmem : ∀ v, v ∈ l1 ↔ v ∈ l2) : l1 = l2 := by
  have hn1 : l1.Nodup := h1.imp (fun h => ne_of_lt h)
  have hn2 : l2.Nodup := h2.imp (fun h => ne_of_lt h)
  exact List.eq_of_perm_of_sorted ((List.perm_ext_iff_of_nodup hn1 hn2).mpr hmem) h1 h2

/-- Membership in the superset aggregator's output. -/
theorem superset_mem (m : LatticeMap) (xs : List Int) (v : Int) :
    v ∈ supersetNeighbourIndices m xs ↔ ∃ idx ∈ xs, v ∈ neighbourIndices m idx 1 := by
  unfold supersetNeighbourIndices
  rw [mem_uniqueAdj, (List.perm_insertionSort (· ≤ ·) _).mem_iff]
  exact List.mem_flatMap

/-- The superset aggregator's output is strictly sorted. -/
theorem superset_sorted (m : LatticeMap) (xs : List Int) :
    List.Pairwise (· < ·) (supersetNeighbourIndices m xs) :=
  uniqueAdj_sorted _ (List.sorted_insertionSort (· ≤ ·) _)

/-- C6: `supersetNeighbourIndices` returns a strictly ascending,
duplicate-free sequence whose members are exactly the union of
`neighbourIndices (·) 1` over the input, and the result depends only on the
set of input indices (so it is unchanged under permutation or duplication). -/
theorem C6_superset_aggregator (m : LatticeMap) (xs : List Int) :
    List.Pairwise (· < ·) (supersetNeighbourIndices m xs) ∧
    (∀ v, v ∈ supersetNeighbourIndices m xs ↔ ∃ idx ∈ xs, v ∈ neighbourIndices m idx 1) ∧
    (∀ ys : List Int, (∀ v, v ∈ xs ↔ v ∈ ys) →
      supersetNeighbourIndices m xs = supersetNeighbourIndices m ys) := by
  refine ⟨superset_sorted m xs, superset_mem m xs, ?_⟩
  intro ys hxy
  apply strictSorted_eq_of_mem_iff _ _ (superset_sorted m xs) (superset_sorted m ys)
  intro v
  rw [superset_mem, superset_mem]
  constructor
  · rintro ⟨idx, hidx, hv⟩
    exact ⟨idx, (hxy idx).mp hidx, hv⟩
  · rintro ⟨idx, hidx, hv⟩
    exact ⟨idx, (hxy idx).mpr hidx, hv⟩

/-- Every value in the enumerator's output comes from a cell whose coordinates
were bounds-checked into range on all three axes. -/
theorem mem_neighbourIndicesFromCell (m : LatticeMap) (ci cj ck s v : Int)
    (hv : v ∈ neighbourIndicesFromCell m ci cj ck s) :
    ∃ ii jj kk : Int,
      0 ≤ ii ∧ ii < getI m.repetitions_ 0 ∧
      0 ≤ jj ∧ jj < getI m.repetitions_ 1 ∧
      0 ≤ kk ∧ kk < getI m.repetitions_ 2 ∧
      v ∈ indicesFromCell m ii jj kk := by
  unfold neighbourIndicesFromCell at hv
  rw [List.mem_flatMap] at hv
  obtain ⟨i, -, hv⟩ := hv
  split at hv
  case isFalse => simp at hv
  case isTrue h1 =>
    rw [List.mem_flatMap] at hv
    obtain ⟨j, -, hv⟩ := hv
    split at hv
    case isFalse => simp at hv
    case isTrue h2 =>
      rw [List.mem_flatMap] at hv
      obtain ⟨k, -, hv⟩ := hv
      split at hv
      case isFalse => simp at hv
      case isTrue h3 =>
        exact ⟨_, _, _, h1.1, h1.2, h2.1, h2.2, h3.1, h3.2, hv⟩

/-- Every member of an encoder block is the block base plus an offset in
`[0, n_basis_)`. -/
theorem mem_indicesFromCell (nb Ra Rb Rc : Int) (pa pb pc : Bool) (i j k v : Int)
    (hv : v ∈ indicesFromCell (mkMap nb Ra Rb Rc pa pb pc) i j k) :
    ∃ l : Int, 0 ≤ l ∧ l < nb ∧ v = ((i * Rb + j) * Rc + k) * nb + l := by
  simp only [indicesFromCell, mkMap, getI, List.getD_cons_succ, List.getD_cons_zero,
    List.mem_map, List.mem_range] at hv
  obtain ⟨l, hl, rfl⟩ := hv
  exact ⟨(l : Int), by omega, by omega, by ring⟩

/-- Range bounds of the mapping law on valid tuples. -/
theorem encode_range (nb Ra Rb Rc ii jj kk l : Int)
    (hnb : 0 < nb) (hRb : 0 < Rb) (hRc : 0 < Rc)
    (hii0 : 0 ≤ ii) (hii1 : ii < Ra) (hjj0 : 0 ≤ jj) (hjj1 : jj < Rb)
    (hkk0 : 0 ≤ kk) (hkk1 : kk < Rc) (hl0 : 0 ≤ l) (hl1 : l < nb) :
    0 ≤ ((ii * Rb + jj) * Rc + kk) * nb + l ∧
      ((ii * Rb + jj) * Rc + kk) * nb + l < Ra * Rb * Rc * nb := by
  have c1 : 0 ≤ ii * Rb := mul_nonneg hii0 hRb.le
  have c2 : 0 ≤ (ii * Rb + jj) * Rc := mul_nonneg (by omega) hRc.le
  have c3 : 0 ≤ ((ii * Rb + jj) * Rc + kk) * nb := mul_nonneg (by omega) hnb.le
  have u1 : ii * Rb ≤ (Ra - 1) * Rb := mul_le_mul_of_nonneg_right (by omega) hRb.le
  have e1 : (Ra - 1) * Rb = Ra * Rb - Rb := by ring
  have u2 : (ii * Rb + jj) * Rc ≤ (Ra * Rb - 1) * Rc :=
    mul_le_mul_of_nonneg_right (by omega) hRc.le
  have e2 : (Ra * Rb - 1) * Rc = Ra * Rb * Rc - Rc := by ring
  have u3 : ((ii * Rb + jj) * Rc + kk) * nb ≤ (Ra * Rb * Rc - 1) * nb :=
    mul_le_mul_of_nonneg_right (by omega) hnb.le
  have e3 : (Ra * Rb * Rc - 1) * nb = Ra * Rb * Rc * nb - nb := by ring
  omega

/-- Decoding the encoding of a valid tuple recovers the cell coordinates. -/
theorem decode_of_encode (nb Ra Rb Rc : Int) (pa pb pc : Bool) (ii jj kk l : Int)
    (hnb : 0 < nb) (hRb : 0 < Rb) (hRc : 0 < Rc)
    (hii0 : 0 ≤ ii) (hjj0 : 0 ≤ jj) (hjj1 : jj < Rb)
    (hkk0 : 0 ≤ kk) (hkk1 : kk < Rc) (hl0 : 0 ≤ l) (hl1 : l < nb) :
    indexToCell (mkMap nb Ra Rb Rc pa pb pc) (((ii * Rb + jj) * Rc + kk) * nb + l)
      = (ii, jj, kk) := by
  have hfI : 0 < Rb * Rc := mul_pos hRb hRc
  have c1 : 0 ≤ ii * Rb := mul_nonneg hii0 hRb.le
  have c2 : 0 ≤ (ii * Rb + jj) * Rc := mul_nonneg (by omega) hRc.le
  have c3 : 0 ≤ ((ii * Rb + jj) * Rc + kk) * nb := mul_nonneg (by omega) hnb.le
  rw [indexToCell_eq nb Ra Rb Rc pa pb pc _ hnb hRb hRc (by omega)]
  have h1 : (((ii * Rb + jj) * Rc + kk) * nb + l) / nb = (ii * Rb + jj) * Rc + kk
      ∧ (((ii * Rb + jj) * Rc + kk) * nb + l) % nb = l :=
    (Int.ediv_emod_unique hnb).mpr ⟨by ring, hl0, hl1⟩
  have r0 : 0 ≤ jj * Rc + kk := add_nonneg (mul_nonneg hjj0 hRc.le) hkk0
  have u1 : (jj + 1) * Rc ≤ Rb * Rc := mul_le_mul_of_nonneg_right (by omega) hRc.le
  have e1 : (jj + 1) * Rc = jj * Rc + Rc := by ring
  have h2 : ((ii * Rb + jj) * Rc + kk) / (Rb * Rc) = ii
      ∧ ((ii * Rb + jj) * Rc + kk) % (Rb * Rc) = jj * Rc + kk :=
    (Int.ediv_emod_unique hfI).mpr ⟨by ring, r0, by omega⟩
  have h3 : ((ii * Rb + jj) * Rc + kk) / Rc = ii * Rb + jj
      ∧ ((ii * Rb + jj) * Rc + kk) % Rc = kk :=
    (Int.ediv_emod_unique hRc).mpr ⟨by ring, hkk0, hkk1⟩
  have h4 : (ii * Rb + jj) / Rb = ii ∧ (ii * Rb + jj) % Rb = jj :=
    (Int.ediv_emod_unique hRb).mpr ⟨by ring, hjj0, hjj1⟩
  simp only [Prod.mk.injEq]
  refine ⟨?_, ?_, ?_⟩
  · rw [h1.1, h2.1]
  · rw [h1.1, h3.1, h4.2]
  · rw [h1.1, h3.2]

/-- Pulling the innermost bounds check of the enumerator out into a filter:
a candidate whose (once-wrapped) `k` coordinate is out of range contributes
the empty list, so the loop equals an enumeration over the surviving wrapped
coordinates only. -/
theorem filterStep3 (m : LatticeMap) (x y : Int) (l : List Int) :
    l.flatMap (fun k =>
      if 0 ≤ wrapped m 2 k ∧ wrapped m 2 k < getI m.repetitions_ 2 then
        indicesFromCell m x y (wrapped m 2 k)
      else [])
      = ((l.map (wrapped m 2)).filter
          (fun t => decide (0 ≤ t ∧ t < getI m.repetitions_ 2))).flatMap
          (fun kk => indicesFromCell m x y kk) := by
  induction l with
  | nil => simp
  | cons a t ih =>
    rw [List.flatMap_cons, List.map_cons]
    by_cases h : 0 ≤ wrapped m 2 a ∧ wrapped m 2 a < getI m.repetitions_ 2
    · have hf : List.filter (fun t => decide (0 ≤ t ∧ t < getI m.repetitions_ 2))
          (wrapped m 2 a :: List.map (wrapped m 2) t)
          = wrapped m 2 a :: List.filter (fun t => decide (0 ≤ t ∧ t < getI m.repetitions_ 2))
              (List.map (wrapped m 2) t) :=
        List.filter_cons_of_pos (by simpa using h)
      rw [if_pos h, hf, List.flatMap_cons, ih]
    · have hf : List.filter (fun t => decide (0 ≤ t ∧ t < getI m.repetitions_ 2))
          (wrapped m 2 a :: List.map (wrapped m 2) t)
          = List.filter (fun t => decide (0 ≤ t ∧ t < getI m.repetitions_ 2))
              (List.map (wrapped m 2) t) :=
        List.filter_cons_of_neg (by simpa using h)
      rw [if_neg h, hf, ih, List.nil_append]

/-- Same factoring for the middle (`j`) loop of the enumerator. -/
theorem filterStep2 (m : LatticeMap) (x ck s : Int) (l : List Int) :
    l.flatMap (fun j =>
      if 0 ≤ wrapped m 1 j ∧ wrapped m 1 j < getI m.repetitions_ 1 then
        (intRange (ck - s) (ck + s)).flatMap (fun k =>
          if 0 ≤ wrapped m 2 k ∧ wrapped m 2 k < getI m.repetitions_ 2 then
            indicesFromCell m x (wrapped m 1 j) (wrapped m 2 k)
          else [])
      else [])
      = ((l.map (wrapped m 1)).filter
          (fun t => decide (0 ≤ t ∧ t < getI m.repetitions_ 1))).flatMap (fun jj =>
          (intRange (ck - s) (ck + s)).flatMap (fun k =>
            if 0 ≤ wrapped m 2 k ∧ wrapped m 2 k < getI m.repetitions_ 2 then
              indicesFromCell m x jj (wrapped m 2 k)
            else [])) := by
  induction l with
  | nil => simp
  | cons a t ih =>
    rw [List.flatMap_cons, List.map_cons]
    by_cases h : 0 ≤ wrapped m 1 a ∧ wrapped m 1 a < getI m.repetitions_ 1
    · have hf : List.filter (fun t => decide (0 ≤ t ∧ t < getI m.repetitions_ 1))
          (wrapped m 1 a :: List.map (wrapped m 1) t)
          = wrapped m 1 a :: List.filter (fun t => decide (0 ≤ t ∧ t < getI m.repetitions_ 1))
              (List.map (wrapped m 1) t) :=
        List.filter_cons_of_pos (by simpa using h)
      rw [if_pos h, hf, List.flatMap_cons, ih]
    · have hf : List.filter (fun t => decide (0 ≤ t ∧ t < getI m.repetitions_ 1))
          (wrapped m 1 a :: List.map (wrapped m 1) t)
          = List.filter (fun t => decide (0 ≤ t ∧ t < getI m.repetitions_ 1))
              (List.map (wrapped m 1) t) :=
        List.filter_cons_of_neg (by simpa using h)
      rw [if_neg h, hf, ih, List.nil_append]

/-- Same factoring for the outer (`i`) loop of the enumerator. -/
theorem filterStep1 (m : LatticeMap) (cj ck s : Int) (l : List Int) :
    l.flatMap (fun i =>
      if 0 ≤ wrapped m 0 i ∧ wrapped m 0 i < getI m.repetitions_ 0 then
        (intRange (cj - s) (cj + s)).flatMap (fun j =>
          if 0 ≤ wrapped m 1 j ∧ wrapped m 1 j < getI m.repetitions_ 1 then
            (intRange (ck - s) (ck + s)).flatMap (fun k =>
              if 0 ≤ wrapped m 2 k ∧ wrapped m 2 k < getI m.repetitions_ 2 then
                indicesFromCell m (wrapped m 0 i) (wrapped m 1 j) (wrapped m 2 k)
              else [])
          else [])
      else [])
      = ((l.map (wrapped m 0)).filter
          (fun t => decide (0 ≤ t ∧ t < getI m.repetitions_ 0))).flatMap (fun ii =>
          (intRange (cj - s) (cj + s)).flatMap (fun j =>
            if 0 ≤ wrapped m 1 j ∧ wrapped m 1 j < getI m.repetitions_ 1 then
              (intRange (ck - s) (ck + s)).flatMap (fun k =>
                if 0 ≤ wrapped m 2 k ∧ wrapped m 2 k < getI m.repetitions_ 2 then
                  indicesFromCell m ii (wrapped m 1 j) (wrapped m 2 k)
                else [])
            else [])) := by
  induction l with
  | nil => simp
  | cons a t ih =>
    rw [List.flatMap_cons, List.map_cons]
    by_cases h : 0 ≤ wrapped m 0 a ∧ wrapped m 0 a < getI m.repetitions_ 0
    · have hf : List.filter (fun t => decide (0 ≤ t ∧ t < getI m.repetitions_ 0))
          (wrapped m 0 a :: List.map (wrapped m 0) t)
          = wrapped m 0 a :: List.filter (fun t => decide (0 ≤ t ∧ t < getI m.repetitions_ 0))
              (List.map (wrapped m 0) t) :=
        List.filter_cons_of_pos (by simpa using h)
      rw [if_pos h, hf, List.flatMap_cons, ih]
    · have hf : List.filter (fun t => decide (0 ≤ t ∧ t < getI m.repetitions_ 0))
          (wrapped m 0 a :: List.map (wrapped m 0) t)
          = List.filter (fun t => decide (0 ≤ t ∧ t < getI m.repetitions_ 0))
              (List.map (wrapped m 0) t) :=
        List.filter_cons_of_neg (by simpa using h)
      rw [if_neg h, hf, ih, List.nil_append]

/-- Exact characterisation of the enumerator: it equals the enumeration over
exactly those once-wrapped candidate coordinates that lie in `[0, R)` — a
candidate that falls out of range is dropped from the filter, so its cell
contributes no indices, and the surviving candidates are fed to the encoder
unchanged (never clamped). -/
theorem neighbourIndicesFromCell_eq_filter (m : LatticeMap) (ci cj ck s : Int) :
    neighbourIndicesFromCell m ci cj ck s
      = (((intRange (ci - s) (ci + s)).map (wrapped m 0)).filter
            (fun t => decide (0 ≤ t ∧ t < getI m.repetitions_ 0))).flatMap (fun ii =>
          (((intRange (cj - s) (cj + s)).map (wrapped m 1)).filter
            (fun t => decide (0 ≤ t ∧ t < getI m.repetitions_ 1))).flatMap (fun jj =>
            (((intRange (ck - s) (ck + s)).map (wrapped m 2)).filter
              (fun t => decide (0 ≤ t ∧ t < getI m.repetitions_ 2))).flatMap (fun kk =>
              indicesFromCell m ii jj kk))) := by
  unfold neighbourIndicesFromCell
  rw [filterStep1]
  congr 1
  funext ii
  rw [filterStep2]
  congr 1
  funext jj
  rw [filterStep3]

/-- Length of a concatenation of equal-length blocks. -/
theorem flatMap_length_const (c : Nat) (l : List Int) (f : Int → List Int)
    (h : ∀ x ∈ l, (f x).length = c) : (l.flatMap f).length = l.length * c := by
  induction l with
  | nil => simp
  | cons a t ih =>
    rw [List.flatMap_cons, List.length_append, List.length_cons,
      h a (List.mem_cons_self a t), ih (fun x hx => h x (List.mem_cons_of_mem a hx))]
    ring

/-- C5: on a non-periodic axis no wrap is applied, and a candidate cell whose
coordinate falls outside `[0, R)` is skipped entirely: the enumeration equals
the filter of the (once-wrapped, identity on non-periodic axes) candidates to
`[0, R)` followed by the encoder on the surviving candidates themselves —
never a clamped value — so the output length is exactly `basisCount` times
the number of surviving candidate triples, and consequently every output
index is a valid site index decoding in range on each non-periodic axis. -/
theorem C5_nonperiodic_pruning (nb Ra Rb Rc : Int) (pa pb pc : Bool)
    (index s ci cj ck : Int)
    (hnb : 0 < nb) (hRa : 0 < Ra) (hRb : 0 < Rb) (hRc : 0 < Rc)
    (hidx0 : 0 ≤ index) (hidx1 : index < Ra * Rb * Rc * nb) (hs : 0 ≤ s)
    (hdec : indexToCell (mkMap nb Ra Rb Rc pa pb pc) index = (ci, cj, ck)) :
    neighbourIndices (mkMap nb Ra Rb Rc pa pb pc) index s
      = (((intRange (ci - s) (ci + s)).map (wrapped (mkMap nb Ra Rb Rc pa pb pc) 0)).filter
            (fun t => decide (0 ≤ t ∧ t < Ra))).flatMap (fun ii =>
          (((intRange (cj - s) (cj + s)).map (wrapped (mkMap nb Ra Rb Rc pa pb pc) 1)).filter
            (fun t => decide (0 ≤ t ∧ t < Rb))).flatMap (fun jj =>
            (((intRange (ck - s) (ck + s)).map (wrapped (mkMap nb Ra Rb Rc pa pb pc) 2)).filter
              (fun t => decide (0 ≤ t ∧ t < Rc))).flatMap (fun kk =>
              indicesFromCell (mkMap nb Ra Rb Rc pa pb pc) ii jj kk))) ∧
    (pa = false → ∀ x : Int, wrapped (mkMap nb Ra Rb Rc pa pb pc) 0 x = x) ∧
    (pb = false → ∀ x : Int, wrapped (mkMap nb Ra Rb Rc pa pb pc) 1 x = x) ∧
    (pc = false → ∀ x : Int, wrapped (mkMap nb Ra Rb Rc pa pb pc) 2 x = x) ∧
    (neighbourIndices (mkMap nb Ra Rb Rc pa pb pc) index s).length
      = (((intRange (ci - s) (ci + s)).map (wrapped (mkMap nb Ra Rb Rc pa pb pc) 0)).filter
            (fun t => decide (0 ≤ t ∧ t < Ra))).length
        * ((((intRange (cj - s) (cj + s)).map (wrapped (mkMap nb Ra Rb Rc pa pb pc) 1)).filter
            (fun t => decide (0 ≤ t ∧ t < Rb))).length
        * ((((intRange (ck - s) (ck + s)).map (wrapped (mkMap nb Ra Rb Rc pa pb pc) 2)).filter
            (fun t => decide (0 ≤ t ∧ t < Rc))).length * nb.toNat)) ∧
    (∀ v : Int, v ∈ neighbourIndices (mkMap nb Ra Rb Rc pa pb pc) index s →
      (0 ≤ v ∧ v < Ra * Rb * Rc * nb) ∧
      (pa = false → 0 ≤ (indexToCell (mkMap nb Ra Rb Rc pa pb pc) v).1 ∧
        (indexToCell (mkMap nb Ra Rb Rc pa pb pc) v).1 < Ra) ∧
      (pb = false → 0 ≤ (indexToCell (mkMap nb Ra Rb Rc pa pb pc) v).2.1 ∧
        (indexToCell (mkMap nb Ra Rb Rc pa pb pc) v).2.1 < Rb) ∧
      (pc = false → 0 ≤ (indexToCell (mkMap nb Ra Rb Rc pa pb pc) v).2.2 ∧
        (indexToCell (mkMap nb Ra Rb Rc pa pb pc) v).2.2 < Rc)) := by
  have h1 : (indexToCell (mkMap nb Ra Rb Rc pa pb pc) index).1 = ci := by rw [hdec]
  have h2 : (indexToCell (mkMap nb Ra Rb Rc pa pb pc) index).2.1 = cj := by rw [hdec]
  have h3 : (indexToCell (mkMap nb Ra Rb Rc pa pb pc) index).2.2 = ck := by rw [hdec]
  have hEq : neighbourIndices (mkMap nb Ra Rb Rc pa pb pc) index s
      = (((intRange (ci - s) (ci + s)).map (wrapped (mkMap nb Ra Rb Rc pa pb pc) 0)).filter
            (fun t => decide (0 ≤ t ∧ t < Ra))).flatMap (fun ii =>
          (((intRange (cj - s) (cj + s)).map (wrapped (mkMap nb Ra Rb Rc pa pb pc) 1)).filter
            (fun t => decide (0 ≤ t ∧ t < Rb))).flatMap (fun jj =>
            (((intRange (ck - s) (ck + s)).map (wrapped (mkMap nb Ra Rb Rc pa pb pc) 2)).filter
              (fun t => decide (0 ≤ t ∧ t < Rc))).flatMap (fun kk =>
              indicesFromCell (mkMap nb Ra Rb Rc pa pb pc) ii jj kk))) := by
    show neighbourIndicesFromCell (mkMap nb Ra Rb Rc pa pb pc)
      (indexToCell (mkMap nb Ra Rb Rc pa pb pc) index).1
      (indexToCell (mkMap nb Ra Rb Rc pa pb pc) index).2.1
      (indexToCell (mkMap nb Ra Rb Rc pa pb pc) index).2.2 s = _
    rw [h1, h2, h3, neighbourIndicesFromCell_eq_filter]
    simp only [mkMap, getI, List.getD_cons_zero, List.getD_cons_succ]
  refine ⟨hEq, ?_, ?_, ?_, ?_, ?_⟩
  · intro hpa x
    simp [wrapped, wrap1, mkMap, getB, hpa]
  · intro hpb x
    simp [wrapped, wrap1, mkMap, getB, hpb]
  · intro hpc x
    simp [wrapped, wrap1, mkMap, getB, hpc]
  · rw [hEq]
    exact flatMap_length_const _ _ _ (fun ii _ =>
      flatMap_length_const _ _ _ (fun jj _ =>
        flatMap_length_const _ _ _ (fun kk _ =>
          indicesFromCell_length nb Ra Rb Rc pa pb pc ii jj kk)))
  · intro v hv
    obtain ⟨ii, jj, kk, hii0, hii1, hjj0, hjj1, hkk0, hkk1, hvmem⟩ :=
      mem_neighbourIndicesFromCell (mkMap nb Ra Rb Rc pa pb pc) _ _ _ s v hv
    simp only [mkMap, getI, List.getD_cons_succ, List.getD_cons_zero] at hii1 hjj1 hkk1
    obtain ⟨l, hl0, hl1, rfl⟩ :=
      mem_indicesFromCell nb Ra Rb Rc pa pb pc ii jj kk v hvmem
    have hrange := encode_range nb Ra Rb Rc ii jj kk l hnb hRb hRc
      hii0 hii1 hjj0 hjj1 hkk0 hkk1 hl0 hl1
    have hdec2 := decode_of_encode nb Ra Rb Rc pa pb pc ii jj kk l hnb hRb hRc
      hii0 hjj0 hjj1 hkk0 hkk1 hl0 hl1
    rw [hdec2]
    exact ⟨hrange, fun _ => ⟨hii0, hii1⟩, fun _ => ⟨hjj0, hjj1⟩, fun _ => ⟨hkk0, hkk1⟩⟩

/-- Witness for C5 at the spec's pruning test case: basis 1, non-periodic
`4 × 4 × 4` grid, corner cell `(0,0,0)` (site index 0), shell radius 1. -/
theorem C5_nonperiodic_pruning_witness :
    (0 : Int) < 1 ∧ (0 : Int) < 4 ∧ (0 : Int) < 4 ∧ (0 : Int) < 4 ∧
    (0 : Int) ≤ 0 ∧ (0 : Int) < 4 * 4 * 4 * 1 ∧ (0 : Int) ≤ 1 ∧
    indexToCell (mkMap 1 4 4 4 false false false) 0 = (0, 0, 0) ∧
    (neighbourIndices (mkMap 1 4 4 4 false false false) 0 1).length
      = (((intRange (0 - 1) (0 + 1)).map (wrapped (mkMap 1 4 4 4 false false false) 0)).filter
            (fun t => decide (0 ≤ t ∧ t < 4))).length
        * ((((intRange (0 - 1) (0 + 1)).map (wrapped (mkMap 1 4 4 4 false false false) 1)).filter
            (fun t => decide (0 ≤ t ∧ t < 4))).length
        * ((((intRange (0 - 1) (0 + 1)).map (wrapped (mkMap 1 4 4 4 false false false) 2)).filter
            (fun t => decide (0 ≤ t ∧ t < 4))).length * (1 : Int).toNat)) :=
  have hdec : indexToCell (mkMap 1 4 4 4 false false false) 0 = (0, 0, 0) := by
    rw [indexToCell_eq 1 4 4 4 false false false 0 one_pos (by norm_num)
      (by norm_num) le_rfl]
    norm_num
  ⟨by norm_num, by norm_num, by norm_num, by norm_num, by norm_num, by norm_num,
   by norm_num, hdec,
   (C5_nonperiodic_pruning 1 4 4 4 false false false 0 1 0 0 0 (by norm_num)
     (by norm_num) (by norm_num) (by norm_num) (by norm_num) (by norm_num)
     (by norm_num) hdec).2.2.2.2.1⟩

/-- The spec's pruning test evaluated: at the corner cell of a non-periodic
`4 × 4 × 4` grid with shell radius 1, only the `2 × 2 × 2 = 8` in-range cells
survive — fewer than the unpruned `(2·1+1)^3 = 27` — because the 19 candidate
cells with a negative coordinate are skipped entirely. -/
theorem corner_prune_eval :
    (neighbourIndices (mkMap 1 4 4 4 false false false) 0 1).length = 8 := by
  have hdec : indexToCell (mkMap 1 4 4 4 false false false) 0 = (0, 0, 0) := by
    rw [indexToCell_eq 1 4 4 4 false false false 0 one_pos (by norm_num)
      (by norm_num) le_rfl]
    norm_num
  simp only [neighbourIndices, hdec]
  decide

/-- A block-structured concatenation has length divisible by the block size. -/
theorem flatMap_length_dvd (n : Nat) (l : List Int) (f : Int → List Int)
    (h : ∀ x, n ∣ (f x).length) : n ∣ (l.flatMap f).length := by
  induction l with
  | nil => simp
  | cons a t ih =>
    rw [List.flatMap_cons, List.length_append]
    exact Nat.dvd_add (h a) ih

/-- A concatenation of uniformly bounded blocks has bounded length. -/
theorem flatMap_length_le (c : Nat) (l : List Int) (f : Int → List Int)
    (h : ∀ x, (f x).length ≤ c) : (l.flatMap f).length ≤ l.length * c := by
  induction l with
  | nil => simp
  | cons a t ih =>
    rw [List.flatMap_cons, List.length_append, List.length_cons]
    calc (f a).length + (t.flatMap f).length
        ≤ c + t.length * c := Nat.add_le_add (h a) ih
      _ = (t.length + 1) * c := by ring

theorem intRange_length (lo hi : Int) : (intRange lo hi).length = (hi + 1 - lo).toNat := by
  unfold intRange
  rw [List.length_map, List.length_range]

theorem intRange_zero_shell (c : Int) : intRange (c - 0) (c + 0) = [c] := by
  unfold intRange
  have h : (c + 0 + 1 - (c - 0)).toNat = 1 := by omega
  rw [h]
  simp [List.range_succ]

/-- The single wrap step leaves an in-range coordinate unchanged. -/
theorem wrapped_of_in_range (m : LatticeMap) (axis : Nat) (x : Int)
    (h0 : 0 ≤ x) (h1 : x < getI m.repetitions_ axis) : wrapped m axis x = x := by
  unfold wrapped wrap1
  split_ifs <;> omega

/-- With shell radius `0` the enumerator returns exactly the encoder block of
the centre cell (which is in range, hence neither wrapped nor pruned). -/
theorem neighbourIndicesFromCell_zero (m : LatticeMap) (ci cj ck : Int)
    (h1 : 0 ≤ ci) (h2 : ci < getI m.repetitions_ 0)
    (h3 : 0 ≤ cj) (h4 : cj < getI m.repetitions_ 1)
    (h5 : 0 ≤ ck) (h6 : ck < getI m.repetitions_ 2) :
    neighbourIndicesFromCell m ci cj ck 0 = indicesFromCell m ci cj ck := by
  unfold neighbourIndicesFromCell
  rw [intRange_zero_shell, intRange_zero_shell, intRange_zero_shell]
  have w0 : wrapped m 0 ci = ci := wrapped_of_in_range m 0 ci h1 h2
  have w1 : wrapped m 1 cj = cj := wrapped_of_in_range m 1 cj h3 h4
  have w2 : wrapped m 2 ck = ck := wrapped_of_in_range m 2 ck h5 h6
  simp [w0, w1, w2, h1, h2, h3, h4, h5, h6]

/-- The enumerator's output length is a multiple of `n_basis_`. -/
theorem neighbourIndicesFromCell_length_dvd (m : LatticeMap) (ci cj ck s : Int) :
    m.n_basis_.toNat ∣ (neighbourIndicesFromCell m ci cj ck s).length := by
  unfold neighbourIndicesFromCell
  refine flatMap_length_dvd _ _ _ (fun i => ?_)
  split_ifs with h1
  · refine flatMap_length_dvd _ _ _ (fun j => ?_)
    split_ifs with h2
    · refine flatMap_length_dvd _ _ _ (fun k => ?_)
      split_ifs with h3
      · simp [indicesFromCell]
      · simp
    · simp
  · simp

/-- The enumerator's output length is at most `(2s+1)^3` blocks. -/
theorem neighbourIndicesFromCell_length_le (m : LatticeMap) (ci cj ck s : Int) :
    (neighbourIndicesFromCell m ci cj ck s).length
      ≤ (2 * s + 1).toNat * ((2 * s + 1).toNat * ((2 * s + 1).toNat * m.n_basis_.toNat)) := by
  have hlen : ∀ c : Int, (intRange (c - s) (c + s)).length = (2 * s + 1).toNat := by
    intro c
    rw [intRange_length]
    omega
  unfold neighbourIndicesFromCell
  refine le_trans (flatMap_length_le _ _ _ (fun i => ?_)) (le_of_eq (by rw [hlen ci]))
  split_ifs with h1
  · refine le_trans (flatMap_length_le _ _ _ (fun j => ?_)) (le_of_eq (by rw [hlen cj]))
    split_ifs with h2
    · refine le_trans (flatMap_length_le _ _ _ (fun k => ?_)) (le_of_eq (by rw [hlen ck]))
      split_ifs with h3
      · simp [indicesFromCell]
      · simp
    · simp
  · simp

/-- C10: with shell radius `0` the enumerator returns exactly the
`basisCount` indices of the site's own cell (the encoder block of its decoded
cell); in general the output length is a multiple of `basisCount` and at most
`(2s+1)^3 * basisCount`. -/
theorem C10_zero_shell_and_size (nb Ra Rb Rc : Int) (pa pb pc : Bool) (index s : Int)
    (hnb : 0 < nb) (hRa : 0 < Ra) (hRb : 0 < Rb) (hRc : 0 < Rc)
    (hidx0 : 0 ≤ index) (hidx1 : index < Ra * Rb * Rc * nb) (hs : 0 ≤ s) :
    neighbourIndices (mkMap nb Ra Rb Rc pa pb pc) index 0
      = indicesFromCell (mkMap nb Ra Rb Rc pa pb pc)
          (indexToCell (mkMap nb Ra Rb Rc pa pb pc) index).1
          (indexToCell (mkMap nb Ra Rb Rc pa pb pc) index).2.1
          (indexToCell (mkMap nb Ra Rb Rc pa pb pc) index).2.2 ∧
    nb.toNat ∣ (neighbourIndices (mkMap nb Ra Rb Rc pa pb pc) index s).length ∧
    ((neighbourIndices (mkMap nb Ra Rb Rc pa pb pc) index s).length : Int)
      ≤ (2 * s + 1) ^ 3 * nb := by
  have hdec := indexToCell_eq nb Ra Rb Rc pa pb pc index hnb hRb hRc hidx0
  have hfI : 0 < Rb * Rc := mul_pos hRb hRc
  have hL0 : 0 ≤ index / nb := Int.ediv_nonneg hidx0 hnb.le
  have hci0 : 0 ≤ index / nb / (Rb * Rc) := Int.ediv_nonneg hL0 hfI.le
  have hLlt : index / nb < Ra * Rb * Rc :=
    (Int.ediv_lt_iff_lt_mul hnb).mpr (by linarith)
  have hci1 : index / nb / (Rb * Rc) < Ra := by
    refine (Int.ediv_lt_iff_lt_mul hfI).mpr ?_
    calc index / nb < Ra * Rb * Rc := hLlt
      _ = Ra * (Rb * Rc) := by ring
  refine ⟨?_, ?_, ?_⟩
  · simp only [neighbourIndices]
    rw [hdec]
    apply neighbourIndicesFromCell_zero
    · exact hci0
    · simpa [mkMap, getI] using hci1
    · exact Int.emod_nonneg _ hRb.ne'
    · simpa [mkMap, getI] using Int.emod_lt_of_pos (index / nb / Rc) hRb
    · exact Int.emod_nonneg _ hRc.ne'
    · simpa [mkMap, getI] using Int.emod_lt_of_pos (index / nb) hRc
  · simp only [neighbourIndices]
    exact neighbourIndicesFromCell_length_dvd (mkMap nb Ra Rb Rc pa pb pc) _ _ _ s
  · simp only [neighbourIndices]
    have hb := neighbourIndicesFromCell_length_le (mkMap nb Ra Rb Rc pa pb pc)
      (indexToCell (mkMap nb Ra Rb Rc pa pb pc) index).1
      (indexToCell (mkMap nb Ra Rb Rc pa pb pc) index).2.1
      (indexToCell (mkMap nb Ra Rb Rc pa pb pc) index).2.2 s
    have hcast1 : (((2 * s + 1).toNat : Int)) = 2 * s + 1 := Int.toNat_of_nonneg (by omega)
    have hcast2 : ((nb.toNat : Int)) = nb := Int.toNat_of_nonneg hnb.le
    calc ((neighbourIndicesFromCell (mkMap nb Ra Rb Rc pa pb pc)
            (indexToCell (mkMap nb Ra Rb Rc pa pb pc) index).1
            (indexToCell (mkMap nb Ra Rb Rc pa pb pc) index).2.1
            (indexToCell (mkMap nb Ra Rb Rc pa pb pc) index).2.2 s).length : Int)
        ≤ (((2 * s + 1).toNat * ((2 * s + 1).toNat * ((2 * s + 1).toNat * nb.toNat))
            : Nat) : Int) := by exact_mod_cast hb
      _ = (2 * s + 1) ^ 3 * nb := by push_cast [hcast1, hcast2]; ring

/-- Witness for C10 at a concrete input. -/
theorem C10_zero_shell_and_size_witness :
    (0 : Int) < 1 ∧ (0 : Int) < 2 ∧ (0 : Int) < 2 ∧ (0 : Int) < 2 ∧
    (0 : Int) ≤ 0 ∧ (0 : Int) < 2 * 2 * 2 * 1 ∧ (0 : Int) ≤ 1 ∧
    (1 : Int).toNat ∣ (neighbourIndices (mkMap 1 2 2 2 false false false) 0 1).length :=
  ⟨by norm_num, by norm_num, by norm_num, by norm_num, by norm_num, by norm_num,
   by norm_num,
   (C10_zero_shell_and_size 1 2 2 2 false false false 0 1 (by norm_num) (by norm_num)
     (by norm_num) (by norm_num) (by norm_num) (by norm_num) (by norm_num)).2.1⟩

/-- Evaluation against C4: on an all-periodic `1 × 1 × 1` grid with one basis
site and shell radius `2`, full wraparound would make every one of the
`5^3 = 125` candidates contribute its index, but the source's single
add/subtract wrap leaves candidates at offset `±2` out of range, so they are
discarded and only `27` entries are produced. -/
theorem C4_single_wrap_eval :
    (neighbourIndices (mkMap 1 1 1 1 true true true) 0 2).length = 27 := by
  have h : indexToCell (mkMap 1 1 1 1 true true true) 0 = (0, 0, 0) := by
    rw [indexToCell_eq 1 1 1 1 true true true 0 one_pos one_pos one_pos le_rfl]
    norm_num
  simp only [neighbourIndices, h]
  decide

/-- Evaluation against C7: `indicesFromCell` writes into the file-scope static
buffer and returns a reference to it.  After the first call (cell `(0,0,0)`)
the buffer holds `[0]`; the second call (cell `(0,0,1)`) overwrites it to
`[1]`, so the first caller's view of its result has changed.  Construction
itself also mutates the global buffer (resize), seen in the third conjunct. -/
theorem C7_shared_buffer_eval :
    (indicesFromCellST (constructST 1 [1, 1, 2] [false, false, false] initState).1 0 0 0
        (constructST 1 [1, 1, 2] [false, false, false] initState).2).tmp_cell_indices
      = [0] ∧
    (indicesFromCellST (constructST 1 [1, 1, 2] [false, false, false] initState).1 0 0 1
        (indicesFromCellST (constructST 1 [1, 1, 2] [false, false, false] initState).1 0 0 0
          (constructST 1 [1, 1, 2] [false, false, false] initState).2)).tmp_cell_indices
      = [1] ∧
    (constructST 1 [1, 1, 2] [false, false, false] initState).2 ≠ initState := by
  decide

/-- Evaluation against C8: the constructor performs no validation whatsoever;
with `basisCount = 0` it succeeds and stores the invalid value. -/
theorem C8_no_validation_eval :
    (constructST 0 [2, 2, 2] [true, true, true] initState).1
      = (⟨0, [2, 2, 2], [true, true, true]⟩ : LatticeMap) := by
  decide

/-- Evaluation against C9: `neighbourIndices` performs no shell validation;
with `shells = -1` all three loops are empty and the written prefix of the
result is empty — there is no `InvalidArgument` error path in the source. -/
theorem C9_no_validation_eval :
    neighbourIndices (mkMap 1 2 2 2 false false false) 0 (-1) = [] := by
  have h : indexToCell (mkMap 1 2 2 2 false false false) 0 = (0, 0, 0) := by
    rw [indexToCell_eq 1 2 2 2 false false false 0 one_pos (by norm_num)
      (by norm_num) le_rfl]
    norm_num
  simp only [neighbourIndices, h]
  decide
